import Mathlib

/-!
Verification of `src/educoin.py` (the ClassroomCoin ledger).

Shallow embedding of the blockchain backend of `educoin.py`:
`Transaction`, `Block`, `SimpleBlockchain` and `ClassroomCoin`, together
with proofs of the specification claims about them.

Modelling conventions:
* Python `int` becomes `Int` (amounts, balances) or `Nat` (indices, nonces,
  difficulty — these only ever hold non-negative values in the source).
* `hashlib.sha256(...).hexdigest()` is implemented bit-faithfully (FIPS 180-4)
  over the UTF-8 bytes of the preimage string.
* `json.dumps(..., sort_keys=True)` over the transaction dictionaries is
  implemented with Python's default separators, key order and
  `ensure_ascii` escaping.
* A block's `timestamp` is `time.time()` formatted into the hash preimage;
  the model carries it as the formatted string and threads it as an explicit
  input to every operation that constructs a block (explicit nondeterminism).
* Python `dict` becomes an insertion-ordered association list.
* The unbounded `while` loop of `proof_of_work` takes a fuel parameter and
  returns `none` when the fuel is exhausted (partial correctness).
* Methods that mutate `self` return the post-state; `ValueError` raises
  become `Except.error` paired with the unchanged state.
-/

namespace Educoin

/-! ## SHA-256 (FIPS 180-4), executable over byte lists -/

/-- Truncate to a 32-bit word. -/
def w32 (x : Nat) : Nat := x % 4294967296

/-- Right rotation of a 32-bit word. -/
def rotr (n x : Nat) : Nat := w32 ((x >>> n) ||| (x <<< (32 - n)))

def bigSigma0 (x : Nat) : Nat := rotr 2 x ^^^ rotr 13 x ^^^ rotr 22 x

def bigSigma1 (x : Nat) : Nat := rotr 6 x ^^^ rotr 11 x ^^^ rotr 25 x

def smallSigma0 (x : Nat) : Nat := rotr 7 x ^^^ rotr 18 x ^^^ (x >>> 3)

def smallSigma1 (x : Nat) : Nat := rotr 17 x ^^^ rotr 19 x ^^^ (x >>> 10)

def chF (x y z : Nat) : Nat := (x &&& y) ^^^ ((x ^^^ 4294967295) &&& z)

def majF (x y z : Nat) : Nat := (x &&& y) ^^^ (x &&& z) ^^^ (y &&& z)

/-- SHA-256 round constants (FIPS 180-4 §4.2.2, written in decimal). -/
def sha256K : List Nat :=
  [1116352408, 1899447441, 3049323471, 3921009573, 961987163, 1508970993,
   2453635748, 2870763221, 3624381080, 310598401, 607225278, 1426881987,
   1925078388, 2162078206, 2614888103, 3248222580, 3835390401, 4022224774,
   264347078, 604807628, 770255983, 1249150122, 1555081692, 1996064986,
   2554220882, 2821834349, 2952996808, 3210313671, 3336571891, 3584528711,
   113926993, 338241895, 666307205, 773529912, 1294757372, 1396182291,
   1695183700, 1986661051, 2177026350, 2456956037, 2730485921, 2820302411,
   3259730800, 3345764771, 3516065817, 3600352804, 4094571909, 275423344,
   430227734, 506948616, 659060556, 883997877, 958139571, 1322822218,
   1537002063, 1747873779, 1955562222, 2024104815, 2227730452, 2361852424,
   2428436474, 2756734187, 3204031479, 3329325298]

/-- SHA-256 initial hash values (FIPS 180-4 §5.3.3, written in decimal). -/
def sha256H0 : List Nat :=
  [1779033703, 3144134277, 1013904242, 2773480762,
   1359893119, 2600822924, 528734635, 1541459225]

def natIterate {α : Type} (f : α → α) : Nat → α → α
  | 0, a => a
  | n + 1, a => natIterate f n (f a)

/-- Append the next word of the SHA-256 message schedule. -/
def schedNext (w : List Nat) : List Nat :=
  let n := w.length
  w ++ [w32 (w.getD (n - 16) 0 + smallSigma0 (w.getD (n - 15) 0) +
             w.getD (n - 7) 0 + smallSigma1 (w.getD (n - 2) 0))]

/-- Extend a 16-word chunk to the full 64-word schedule. -/
def schedule (ws : List Nat) : List Nat := natIterate schedNext 48 ws

/-- One SHA-256 compression round on the 8-word working state. -/
def sha256Round (kw : Nat) (st : List Nat) : List Nat :=
  match st with
  | [a, b, c, d, e, f, g, h] =>
    let t1 := w32 (h + bigSigma1 e + chF e f g + kw)
    let t2 := w32 (bigSigma0 a + majF a b c)
    [w32 (t1 + t2), a, b, c, w32 (d + t1), e, f, g]
  | other => other

/-- Compress one 16-word chunk into the running hash value. -/
def compressChunk (hv : List Nat) (chunk : List Nat) : List Nat :=
  let kw := List.zipWith (fun k w => w32 (k + w)) sha256K (schedule chunk)
  let st := kw.foldl (fun st x => sha256Round x st) hv
  List.zipWith (fun x y => w32 (x + y)) hv st

/-- SHA-256 padding: append 0x80, zero bytes, and the 64-bit big-endian
bit length, reaching a multiple of 64 bytes. -/
def padBytes (msg : List Nat) : List Nat :=
  let len := msg.length
  let zeros := (119 - (len % 64)) % 64
  msg ++ [128] ++ List.replicate zeros 0 ++
    (([56, 48, 40, 32, 24, 16, 8, 0] : List Nat).map
      (fun s => ((len * 8) >>> s) % 256))

/-- Split a padded byte list into 64-byte chunks (the first argument is a
structural bound on the number of chunks; each step consumes at least one
byte, so the list's length suffices). -/
def toChunksAux : Nat → List Nat → List (List Nat)
  | 0, _ => []
  | _, [] => []
  | n + 1, l => l.take 64 :: toChunksAux n (l.drop 64)

def toChunks (l : List Nat) : List (List Nat) := toChunksAux l.length l

/-- Convert 4 consecutive bytes (big-endian) into 32-bit words. -/
def bytesToWords : List Nat → List Nat
  | b0 :: b1 :: b2 :: b3 :: rest =>
      (((b0 * 256 + b1) * 256 + b2) * 256 + b3) :: bytesToWords rest
  | _ => []

/-- The 8-word SHA-256 digest of a byte list. -/
def sha256Words (msg : List Nat) : List Nat :=
  ((toChunks (padBytes msg)).map bytesToWords).foldl compressChunk sha256H0

def hexDigit (n : Nat) : Char :=
  if n < 10 then Char.ofNat (48 + n) else Char.ofNat (87 + n)

def wordHex (w : Nat) : List Char :=
  [hexDigit ((w >>> 28) % 16), hexDigit ((w >>> 24) % 16),
   hexDigit ((w >>> 20) % 16), hexDigit ((w >>> 16) % 16),
   hexDigit ((w >>> 12) % 16), hexDigit ((w >>> 8) % 16),
   hexDigit ((w >>> 4) % 16), hexDigit (w % 16)]

/-- Lowercase hex digest of a byte list, as `hashlib.sha256(..).hexdigest()`. -/
def sha256hexBytes (msg : List Nat) : String :=
  String.mk ((sha256Words msg).foldr (fun w acc => wordHex w ++ acc) [])

/-- UTF-8 encoding of one character (`str.encode()` in Python). -/
def utf8Bytes (c : Char) : List Nat :=
  let n := c.toNat
  if n < 128 then [n]
  else if n < 2048 then [192 + n / 64, 128 + n % 64]
  else if n < 65536 then [224 + n / 4096, 128 + (n / 64) % 64, 128 + n % 64]
  else [240 + n / 262144, 128 + (n / 4096) % 64, 128 + (n / 64) % 64,
        128 + n % 64]

def strBytes (s : String) : List Nat :=
  s.data.foldr (fun c acc => utf8Bytes c ++ acc) []

/-- `hashlib.sha256(s.encode()).hexdigest()`. -/
def sha256 (s : String) : String := sha256hexBytes (strBytes s)

/-! ## Python `json.dumps` serialization of transactions

`Block.compute_hash` serializes the transaction list with
`json.dumps([t.to_dict() for t in txs], sort_keys=True)`: keys in sorted
order (`amount`, `note`, `recipient`, `sender`), default separators
`", "` and `": "`, and `ensure_ascii=True` string escaping. -/

def hex4 (n : Nat) : String :=
  String.mk [hexDigit ((n / 4096) % 16), hexDigit ((n / 256) % 16),
             hexDigit ((n / 16) % 16), hexDigit (n % 16)]

/-- `ensure_ascii` JSON escaping of one character: short escapes for the
classic control characters, `\uXXXX` (with surrogate pairs above the BMP)
for everything outside `0x20`–`0x7e`. -/
def jsonEscapeChar (c : Char) : String :=
  if c = '"' then "\\\""
  else if c = '\\' then "\\\\"
  else if c = Char.ofNat 8 then "\\b"
  else if c = Char.ofNat 9 then "\\t"
  else if c = Char.ofNat 10 then "\\n"
  else if c = Char.ofNat 12 then "\\f"
  else if c = Char.ofNat 13 then "\\r"
  else if c.toNat < 32 ∨ c.toNat > 126 then
    if c.toNat < 65536 then "\\u" ++ hex4 c.toNat
    else
      let v := c.toNat - 65536
      "\\u" ++ hex4 (55296 + v / 1024) ++ "\\u" ++ hex4 (56320 + v % 1024)
  else String.singleton c

def jsonString (s : String) : String :=
  "\"" ++ String.join (s.data.map jsonEscapeChar) ++ "\""

/-! ## Transaction and Block -/

/-- `Transaction` dataclass: sender, recipient, amount, note. -/
structure Transaction where
  sender : String
  recipient : String
  amount : Int
  note : String
deriving DecidableEq

/-- `json.dumps(t.to_dict(), sort_keys=True)`: keys in lexicographic order. -/
def Transaction.jsonDict (t : Transaction) : String :=
  "\x7b\"amount\": " ++ toString t.amount ++
  ", \"note\": " ++ jsonString t.note ++
  ", \"recipient\": " ++ jsonString t.recipient ++
  ", \"sender\": " ++ jsonString t.sender ++ "\x7d"

/-- `json.dumps([t.to_dict() for t in txs], sort_keys=True)`. -/
def txListJson (txs : List Transaction) : String :=
  "[" ++ String.intercalate ", " (txs.map Transaction.jsonDict) ++ "]"

/-- `Block` with its stored fields; `hash` is the derived digest field. -/
structure Block where
  index : Nat
  transactions : List Transaction
  previous_hash : String
  nonce : Nat
  timestamp : String
  hash : String

/-- The digest of `Block.compute_hash`: SHA-256 over the concatenation
`f"{index}{tx_str}{previous_hash}{nonce}{timestamp}"` (the stored `hash`
field is not part of the preimage). -/
def computeHashFrom (index : Nat) (transactions : List Transaction)
    (previous_hash : String) (nonce : Nat) (timestamp : String) : String :=
  sha256 (toString index ++ txListJson transactions ++ previous_hash ++
          toString nonce ++ timestamp)

/-- `Block.compute_hash` over the stored fields. -/
def Block.compute_hash (b : Block) : String :=
  computeHashFrom b.index b.transactions b.previous_hash b.nonce b.timestamp

/-- `Block.__init__`: stores the fields and sets `hash = compute_hash()`. -/
def Block.new (index : Nat) (transactions : List Transaction)
    (previous_hash : String) (nonce : Nat) (timestamp : String) : Block :=
  ⟨index, transactions, previous_hash, nonce, timestamp,
   computeHashFrom index transactions previous_hash nonce timestamp⟩

/-- Sanity check of the digest implementation against a published FIPS 180-4
test vector. -/
theorem sha256_abc :
    sha256 "abc" =
      "ba7816bf8f01cfea414140de5dae2223b00361a396177a9cb410ff61f20015ad" := by
  rfl

/-! ## SimpleBlockchain -/

/-- `SimpleBlockchain`: the chain and the mining difficulty. -/
structure SimpleBlockchain where
  chain : List Block
  difficulty : Nat

/-- The genesis block built by `create_genesis_block`:
`Block(index=0, transactions=[], previous_hash="0")` with default nonce 0. -/
def create_genesis_block (ts : String) : Block :=
  Block.new 0 [] "0" 0 ts

/-- `SimpleBlockchain.__init__`: store the difficulty and append the genesis
block (`ts` is the genesis timestamp captured from `time.time()`). -/
def SimpleBlockchain.new (difficulty : Nat) (ts : String) : SimpleBlockchain :=
  ⟨[create_genesis_block ts], difficulty⟩

/-- Placeholder block: `chain[-1]` raises on an empty chain in Python; the
chain is never empty, so this default is never read. -/
def emptyBlock : Block := Block.new 0 [] "0" 0 ""

/-- `last_block` property: `self.chain[-1]`. -/
def SimpleBlockchain.last_block (bc : SimpleBlockchain) : Block :=
  bc.chain.getLastD emptyBlock

/-- The mining target `"0" * difficulty`, as a character list. -/
def powTarget (difficulty : Nat) : List Char := List.replicate difficulty '0'

/-- Python's `s.startswith(t)`: `t` is a character-wise prefix of `s`
(recursion is on the pattern, so the empty pattern accepts immediately). -/
def charsPrefix : List Char → List Char → Bool
  | [], _ => true
  | a :: as, s =>
      match s with
      | [] => false
      | b :: bs => a == b && charsPrefix as bs

/-- `proof_of_work`: repeat `nonce += 1; hash = compute_hash()` until the
hash starts with the target. Python's `str.startswith` is the character
prefix test. The loop is unbounded in the source; `fuel` bounds the number
of nonce increments in the model and `none` means the fuel ran out. -/
def SimpleBlockchain.proof_of_work (bc : SimpleBlockchain) :
    Nat → Block → Option Block
  | fuel, b =>
    if charsPrefix (powTarget bc.difficulty) b.hash.data then some b
    else
      match fuel with
      | 0 => none
      | fuel' + 1 =>
          bc.proof_of_work fuel'
            (Block.new b.index b.transactions b.previous_hash (b.nonce + 1)
              b.timestamp)

/-- `add_block`: build `Block(len(self.chain), transactions,
self.last_block.hash)`, mine it, append it, and return it together with the
updated blockchain. -/
def SimpleBlockchain.add_block (bc : SimpleBlockchain)
    (transactions : List Transaction) (ts : String) (fuel : Nat) :
    Option (Block × SimpleBlockchain) :=
  match bc.proof_of_work fuel
      (Block.new bc.chain.length transactions bc.last_block.hash 0 ts) with
  | none => none
  | some mined => some (mined, ⟨bc.chain ++ [mined], bc.difficulty⟩)

/-- Loop body of `get_balance` for one transaction: the recipient gains
`amount`, the sender loses `amount` (both tests run, so a self-transfer
nets zero). -/
def balStep (address : String) (balance : Int) (tx : Transaction) : Int :=
  let balance1 :=
    if tx.recipient == address then balance + tx.amount else balance
  if tx.sender == address then balance1 - tx.amount else balance1

/-- `get_balance`: scan every transaction of every block. -/
def SimpleBlockchain.get_balance (bc : SimpleBlockchain)
    (address : String) : Int :=
  bc.chain.foldl
    (fun balance block => block.transactions.foldl (balStep address) balance)
    0

/-! Python dicts are insertion-ordered mappings; `all_balances` builds one.
The model uses an association list: updating an existing key keeps its
position, a new key is appended at the end. -/

/-- Lookup of key `k` in the association list (`k in d` / `d[k]`). -/
def alFind (m : List (String × Int)) (k : String) : Option Int :=
  match m.find? (fun p => p.1 == k) with
  | some p => some p.2
  | none => none

/-- `d.get(k, 0)` on the association list. -/
def alGet (m : List (String × Int)) (k : String) : Int :=
  match alFind m k with
  | some v => v
  | none => 0

/-- `d[k] = v` on the association list (update in place or append). -/
def alSet : List (String × Int) → String → Int → List (String × Int)
  | [], k, v => [(k, v)]
  | p :: rest, k, v =>
      if p.1 == k then (p.1, v) :: rest else p :: alSet rest k v

/-- The two dict updates the `all_balances` loop performs for one
transaction. -/
def applyTx (m : List (String × Int)) (tx : Transaction) :
    List (String × Int) :=
  let m1 := alSet m tx.sender (alGet m tx.sender - tx.amount)
  alSet m1 tx.recipient (alGet m1 tx.recipient + tx.amount)

/-- `all_balances`: one full scan accumulating sender and recipient deltas. -/
def SimpleBlockchain.all_balances (bc : SimpleBlockchain) :
    List (String × Int) :=
  bc.chain.foldl (fun m block => block.transactions.foldl applyTx m) []

/-! ## ClassroomCoin -/

def TEACHER : String := "TEACHER"

/-- `ClassroomCoin`: a blockchain plus the registered student set (a Python
set of strings, modelled as a list queried only for membership). -/
structure ClassroomCoin where
  blockchain : SimpleBlockchain
  students : List String

/-- `ClassroomCoin.__init__`. -/
def ClassroomCoin.new (students : List String) (difficulty : Nat)
    (ts : String) : ClassroomCoin :=
  ⟨SimpleBlockchain.new difficulty ts, students⟩

/-- The two `ValueError` raises of `award_coin` and `transfer`, carrying the
formatted message. -/
inductive LedgerError where
  | unregisteredParticipant (msg : String)
  | insufficientBalance (msg : String)
deriving DecidableEq

/-- `award_coin`: reject an unregistered student, otherwise add a block with
the single transaction `TEACHER → student` of amount 1. The returned
`ClassroomCoin` is the post-state (unchanged on error); `none` means the
mining fuel ran out. -/
def ClassroomCoin.award_coin (c : ClassroomCoin) (student reason ts : String)
    (fuel : Nat) : Option (ClassroomCoin × Except LedgerError Block) :=
  if c.students.contains student then
    match c.blockchain.add_block [⟨TEACHER, student, 1, reason⟩] ts fuel with
    | none => none
    | some (b, bc') => some (⟨bc', c.students⟩, Except.ok b)
  else
    some (c, Except.error (LedgerError.unregisteredParticipant
      (student ++ " is not a registered student.")))

/-- `transfer`: reject unknown parties, then insufficient balance, otherwise
add a block with the single transaction `sender → recipient`. -/
def ClassroomCoin.transfer (c : ClassroomCoin) (sender recipient : String)
    (amount : Int) (note ts : String) (fuel : Nat) :
    Option (ClassroomCoin × Except LedgerError Block) :=
  if !(c.students.contains sender) || !(c.students.contains recipient) then
    some (c, Except.error (LedgerError.unregisteredParticipant
      "Both sender and recipient must be registered students."))
  else if c.blockchain.get_balance sender < amount then
    some (c, Except.error (LedgerError.insufficientBalance
      (sender ++ " does not have enough balance.")))
  else
    match c.blockchain.add_block [⟨sender, recipient, amount, note⟩] ts fuel with
    | none => none
    | some (b, bc') => some (⟨bc', c.students⟩, Except.ok b)

/-- `balance`: delegate to `get_balance`. -/
def ClassroomCoin.balance (c : ClassroomCoin) (student : String) : Int :=
  c.blockchain.get_balance student

/-- Stable insertion of one entry into a descending-by-balance list: the new
entry goes after every entry with a greater-or-equal balance. -/
def insertDesc (p : String × Int) : List (String × Int) →
    List (String × Int)
  | [] => [p]
  | q :: rest => if q.2 < p.2 then p :: q :: rest else q :: insertDesc p rest

/-- Stable sort by balance descending. Python's
`sorted(items, key=lambda x: x[1], reverse=True)` is a stable sort whose
`reverse=True` keeps equal-key items in input order, and `dict(...)` keeps
that order; any stable sort computes the same list. -/
def stableDescSort (l : List (String × Int)) : List (String × Int) :=
  l.foldl (fun acc p => insertDesc p acc) []

/-- `leaderboard`: `dict(sorted(all_balances().items(), key=..x[1],
reverse=True))`. -/
def ClassroomCoin.leaderboard (c : ClassroomCoin) : List (String × Int) :=
  stableDescSort c.blockchain.all_balances

/-! ## Reachable states

Every chain the program can produce: a fresh `ClassroomCoin`, then any
sequence of successful `add_block` / `award_coin` / `transfer` operations
(plus student registration, which leaves the chain untouched). -/

inductive Reach : ClassroomCoin → Prop where
  | fresh (students : List String) (difficulty : Nat) (ts : String) :
      Reach (ClassroomCoin.new students difficulty ts)
  | add_block (c : ClassroomCoin) (txs : List Transaction) (ts : String)
      (fuel : Nat) (b : Block) (bc' : SimpleBlockchain) :
      Reach c → c.blockchain.add_block txs ts fuel = some (b, bc') →
      Reach ⟨bc', c.students⟩
  | award (c : ClassroomCoin) (student reason ts : String) (fuel : Nat)
      (c' : ClassroomCoin) (b : Block) :
      Reach c → c.award_coin student reason ts fuel = some (c', Except.ok b) →
      Reach c'
  | transfer (c : ClassroomCoin) (s r : String) (amount : Int)
      (note ts : String) (fuel : Nat) (c' : ClassroomCoin) (b : Block) :
      Reach c → c.transfer s r amount note ts fuel = some (c', Except.ok b) →
      Reach c'
  | register (c : ClassroomCoin) (name : String) :
      Reach c → Reach ⟨c.blockchain, name :: c.students⟩

/-! ## Concrete states used by witnesses -/

/-- The post-state of an `award_coin` call (the input state if the call
errors or runs out of fuel). -/
def awardState (c : ClassroomCoin) (student reason ts : String)
    (fuel : Nat) : ClassroomCoin :=
  match c.award_coin student reason ts fuel with
  | some (c', Except.ok _) => c'
  | _ => c

/-- The block appended by an `award_coin` call. -/
def awardBlock (c : ClassroomCoin) (student reason ts : String)
    (fuel : Nat) : Block :=
  match c.award_coin student reason ts fuel with
  | some (_, Except.ok b) => b
  | _ => emptyBlock

/-- A fresh classroom with one registered student, difficulty 0. -/
def wCoin0 : ClassroomCoin := ClassroomCoin.new ["Alice"] 0 "t0"

/-- `wCoin0` after one successful coin award to Alice. -/
def wCoin1 : ClassroomCoin := awardState wCoin0 "Alice" "good" "t1" 0

/-! ## Specification-side balance definitions -/

/-- The signed contribution of one transaction to the balance of `a`, as the
spec words it: `+amount` if `a` is the recipient, `-amount` if `a` is the
sender. -/
def txDelta (a : String) (t : Transaction) : Int :=
  (if t.recipient = a then t.amount else 0) -
  (if t.sender = a then t.amount else 0)

/-- All transactions of all blocks, in chain order. -/
def chainTxs (bc : SimpleBlockchain) : List Transaction :=
  (bc.chain.map Block.transactions).flatten

/-- The spec's balance: the sum of the signed contributions of every
transaction in every block. -/
def specSignedSum (bc : SimpleBlockchain) (a : String) : Int :=
  ((chainTxs bc).map (txDelta a)).sum

/-- Modelled from the spec: "the sum of all award amounts introduced by
TEACHER awards" — the total amount sent by `TEACHER` across the chain
(awards are the only operation that makes `TEACHER` a sender). -/
def teacherAwardTotal (bc : SimpleBlockchain) : Int :=
  (((chainTxs bc).filter (fun t => t.sender == TEACHER)).map
    Transaction.amount).sum

/-! ## Projection lemmas for `Block.new` -/

@[simp] theorem Block.new_index (i : Nat) (t : List Transaction)
    (p : String) (n : Nat) (ts : String) : (Block.new i t p n ts).index = i :=
  rfl

@[simp] theorem Block.new_transactions (i : Nat) (t : List Transaction)
    (p : String) (n : Nat) (ts : String) :
    (Block.new i t p n ts).transactions = t := rfl

@[simp] theorem Block.new_previous_hash (i : Nat) (t : List Transaction)
    (p : String) (n : Nat) (ts : String) :
    (Block.new i t p n ts).previous_hash = p := rfl

@[simp] theorem Block.new_nonce (i : Nat) (t : List Transaction)
    (p : String) (n : Nat) (ts : String) : (Block.new i t p n ts).nonce = n :=
  rfl

@[simp] theorem Block.new_timestamp (i : Nat) (t : List Transaction)
    (p : String) (n : Nat) (ts : String) :
    (Block.new i t p n ts).timestamp = ts := rfl

/-- A freshly constructed block stores the digest of its own fields. -/
theorem Block.new_hash_sound (i : Nat) (t : List Transaction) (p : String)
    (n : Nat) (ts : String) :
    (Block.new i t p n ts).hash = (Block.new i t p n ts).compute_hash := rfl

/-! ## `get_balance` equals the spec's signed sum -/

theorem balStep_eq (a : String) (acc : Int) (t : Transaction) :
    balStep a acc t = acc + txDelta a t := by
  by_cases hr : t.recipient = a <;> by_cases hs : t.sender = a <;>
    · simp [balStep, txDelta, hr, hs]
      try ring

theorem foldl_balStep (a : String) (txs : List Transaction) (acc : Int) :
    txs.foldl (balStep a) acc = acc + (txs.map (txDelta a)).sum := by
  induction txs generalizing acc with
  | nil => simp
  | cons t ts ih => simp [List.foldl_cons, balStep_eq, ih]; ring

theorem foldl_balance_blocks (a : String) (blocks : List Block) (acc : Int) :
    blocks.foldl
        (fun balance block =>
          block.transactions.foldl (balStep a) balance) acc
      = acc + ((blocks.map Block.transactions).flatten.map (txDelta a)).sum := by
  induction blocks generalizing acc with
  | nil => simp
  | cons blk rest ih =>
      simp only [List.foldl_cons]
      rw [ih, foldl_balStep]
      simp [List.flatten_cons, List.map_append, List.sum_append]
      ring

/-- `SimpleBlockchain.get_balance` computes exactly the spec's signed sum. -/
theorem get_balance_eq_spec (bc : SimpleBlockchain) (a : String) :
    bc.get_balance a = specSignedSum bc a := by
  unfold SimpleBlockchain.get_balance specSignedSum chainTxs
  rw [foldl_balance_blocks]
  ring

/-! ## Association-list lemmas for `all_balances` -/

theorem alFind_nil (a : String) : alFind [] a = none := rfl

theorem alFind_cons (p : String × Int) (rest : List (String × Int))
    (a : String) :
    alFind (p :: rest) a = if p.1 == a then some p.2 else alFind rest a := by
  by_cases h : (p.1 == a) = true
  · simp [alFind, List.find?_cons_of_pos _ h, h]
  · simp [alFind, List.find?_cons_of_neg _ h, h]

theorem alGet_nil (a : String) : alGet [] a = 0 := rfl

theorem alGet_cons (p : String × Int) (rest : List (String × Int))
    (a : String) :
    alGet (p :: rest) a = if p.1 == a then p.2 else alGet rest a := by
  by_cases h : (p.1 == a) = true <;> simp [alGet, alFind_cons, h]

theorem alFind_alSet (m : List (String × Int)) (k : String) (v : Int)
    (a : String) :
    alFind (alSet m k v) a = if a = k then some v else alFind m a := by
  induction m with
  | nil =>
      simp only [alSet, alFind_cons, alFind_nil]
      by_cases h : a = k
      · subst h; simp
      · simp [beq_iff_eq, h, Ne.symm h]
  | cons p rest ih =>
      simp only [alSet]
      by_cases hpk : (p.1 == k) = true
      · have hk : p.1 = k := by simpa [beq_iff_eq] using hpk
        rw [if_pos hpk, alFind_cons, alFind_cons]
        by_cases ha : a = k
        · have hpa : (p.1 == a) = true := by simp [beq_iff_eq, hk, ha]
          simp [hpa, ha, hpk]
        · have hpa : (p.1 == a) = false := by
            simp only [beq_eq_false_iff_ne]
            exact hk ▸ fun e => ha e.symm
          simp [hpa, ha]
      · rw [if_neg hpk, alFind_cons, alFind_cons]
        by_cases hpa : (p.1 == a) = true
        · have hak : ¬ a = k := by
            intro e
            exact hpk (by simpa [beq_iff_eq, e] using hpa)
          simp [hpa, hak]
        · simp [hpa, ih]

theorem alGet_alSet (m : List (String × Int)) (k : String) (v : Int)
    (a : String) :
    alGet (alSet m k v) a = if a = k then v else alGet m a := by
  by_cases h : a = k <;> simp [alGet, alFind_alSet, h]

theorem alGet_applyTx (m : List (String × Int)) (t : Transaction)
    (a : String) :
    alGet (applyTx m t) a = alGet m a + txDelta a t := by
  simp only [applyTx, alGet_alSet, txDelta]
  by_cases hr : t.recipient = a <;> by_cases hs : t.sender = a
  · simp [hr, hs]
    try ring
  · simp [hr, hs, Ne.symm hs]
    try ring
  · simp [hr, hs, Ne.symm hr]
    try ring
  · simp [hr, hs, Ne.symm hr, Ne.symm hs]

theorem alGet_foldl_applyTx (txs : List Transaction)
    (m : List (String × Int)) (a : String) :
    alGet (txs.foldl applyTx m) a = alGet m a + (txs.map (txDelta a)).sum := by
  induction txs generalizing m with
  | nil => simp
  | cons t ts ih => simp [List.foldl_cons, ih, alGet_applyTx]; ring

theorem alGet_foldl_blocks (blocks : List Block) (m : List (String × Int))
    (a : String) :
    alGet (blocks.foldl
        (fun m block => block.transactions.foldl applyTx m) m) a
      = alGet m a + ((blocks.map Block.transactions).flatten.map
          (txDelta a)).sum := by
  induction blocks generalizing m with
  | nil => simp
  | cons blk rest ih =>
      simp [List.foldl_cons, ih, alGet_foldl_applyTx, List.flatten_cons,
        List.map_append, List.sum_append]
      ring

/-- `all_balances` maps every address to the spec's signed sum (absent
addresses read as 0 through `dict.get(k, 0)`). -/
theorem alGet_all_balances (bc : SimpleBlockchain) (a : String) :
    alGet bc.all_balances a = specSignedSum bc a := by
  unfold SimpleBlockchain.all_balances specSignedSum chainTxs
  rw [alGet_foldl_blocks]
  simp [alGet_nil]

/-! ## Conservation: every dict update is balanced, so values sum to 0 -/

theorem alSet_snd_sum (m : List (String × Int)) (k : String) (v : Int) :
    ((alSet m k v).map Prod.snd).sum = (m.map Prod.snd).sum - alGet m k + v := by
  induction m with
  | nil => simp [alSet, alGet_nil]
  | cons p rest ih =>
      by_cases h : (p.1 == k) = true
      · simp [alSet, h, alGet_cons]
        ring
      · simp [alSet, h, alGet_cons, ih]
        ring

theorem applyTx_snd_sum (m : List (String × Int)) (t : Transaction) :
    ((applyTx m t).map Prod.snd).sum = (m.map Prod.snd).sum := by
  simp only [applyTx, alSet_snd_sum, alGet_alSet]
  ring

theorem foldl_applyTx_snd_sum (txs : List Transaction)
    (m : List (String × Int)) :
    ((txs.foldl applyTx m).map Prod.snd).sum = (m.map Prod.snd).sum := by
  induction txs generalizing m with
  | nil => rfl
  | cons t ts ih => simp [List.foldl_cons, ih, applyTx_snd_sum]

/-- The values of `all_balances` always sum to zero: each transaction
credits and debits the same amount. -/
theorem sum_all_balances_zero (bc : SimpleBlockchain) :
    ((bc.all_balances).map Prod.snd).sum = 0 := by
  unfold SimpleBlockchain.all_balances
  have h : ∀ (blocks : List Block) (m : List (String × Int)),
      ((blocks.foldl (fun m block => block.transactions.foldl applyTx m)
        m).map Prod.snd).sum = (m.map Prod.snd).sum := by
    intro blocks
    induction blocks with
    | nil => intro m; rfl
    | cons blk rest ih =>
        intro m
        simp [List.foldl_cons, ih, foldl_applyTx_snd_sum]
  rw [h]
  rfl

/-! ## Inversion lemmas for mining and block appending -/

theorem proof_of_work_fields (bc : SimpleBlockchain) (fuel : Nat) :
    ∀ (b b' : Block), bc.proof_of_work fuel b = some b' →
      b'.index = b.index ∧ b'.transactions = b.transactions ∧
      b'.previous_hash = b.previous_hash ∧ b'.timestamp = b.timestamp := by
  induction fuel with
  | zero =>
      intro b b' h
      rw [SimpleBlockchain.proof_of_work] at h
      split at h
      · cases h
        exact ⟨rfl, rfl, rfl, rfl⟩
      · cases h
  | succ n ih =>
      intro b b' h
      rw [SimpleBlockchain.proof_of_work] at h
      split at h
      · cases h
        exact ⟨rfl, rfl, rfl, rfl⟩
      · have := ih _ _ h
        simpa using this

theorem proof_of_work_hash_sound (bc : SimpleBlockchain) (fuel : Nat) :
    ∀ (b b' : Block), b.hash = b.compute_hash →
      bc.proof_of_work fuel b = some b' → b'.hash = b'.compute_hash := by
  induction fuel with
  | zero =>
      intro b b' hb h
      rw [SimpleBlockchain.proof_of_work] at h
      split at h
      · cases h; exact hb
      · cases h
  | succ n ih =>
      intro b b' hb h
      rw [SimpleBlockchain.proof_of_work] at h
      split at h
      · cases h; exact hb
      · exact ih _ _ (Block.new_hash_sound _ _ _ _ _) h

theorem proof_of_work_target (bc : SimpleBlockchain) (fuel : Nat) :
    ∀ (b b' : Block), bc.proof_of_work fuel b = some b' →
      charsPrefix (powTarget bc.difficulty) b'.hash.data = true := by
  induction fuel with
  | zero =>
      intro b b' h
      rw [SimpleBlockchain.proof_of_work] at h
      split at h
      · cases h; assumption
      · cases h
  | succ n ih =>
      intro b b' h
      rw [SimpleBlockchain.proof_of_work] at h
      split at h
      · cases h; assumption
      · exact ih _ _ h

theorem proof_of_work_zero_difficulty (bc : SimpleBlockchain)
    (h : bc.difficulty = 0) (fuel : Nat) (b : Block) :
    bc.proof_of_work fuel b = some b := by
  have hpre : charsPrefix (powTarget bc.difficulty) b.hash.data = true := by
    rw [h]; rfl
  cases fuel with
  | zero => rw [SimpleBlockchain.proof_of_work, if_pos hpre]
  | succ n => rw [SimpleBlockchain.proof_of_work, if_pos hpre]

theorem add_block_some (bc : SimpleBlockchain) (txs : List Transaction)
    (ts : String) (fuel : Nat) (b : Block) (bc' : SimpleBlockchain)
    (h : bc.add_block txs ts fuel = some (b, bc')) :
    bc'.chain = bc.chain ++ [b] ∧ bc'.difficulty = bc.difficulty ∧
    b.index = bc.chain.length ∧ b.previous_hash = bc.last_block.hash ∧
    b.transactions = txs ∧ b.timestamp = ts ∧ b.hash = b.compute_hash := by
  unfold SimpleBlockchain.add_block at h
  cases hp : bc.proof_of_work fuel
      (Block.new bc.chain.length txs bc.last_block.hash 0 ts) with
  | none => rw [hp] at h; cases h
  | some mined =>
      rw [hp] at h
      cases h
      have hf := proof_of_work_fields bc fuel _ _ hp
      have hh := proof_of_work_hash_sound bc fuel _ _
        (Block.new_hash_sound _ _ _ _ _) hp
      simp only [Block.new_index, Block.new_transactions,
        Block.new_previous_hash, Block.new_timestamp] at hf
      exact ⟨rfl, rfl, hf.1, hf.2.2.1, hf.2.1, hf.2.2.2, hh⟩

/-! ## Inversion lemmas for the ClassroomCoin operations -/

theorem award_coin_ok (c : ClassroomCoin) (student reason ts : String)
    (fuel : Nat) (c' : ClassroomCoin) (b : Block)
    (h : c.award_coin student reason ts fuel = some (c', Except.ok b)) :
    c.students.contains student = true ∧
    c.blockchain.add_block [⟨TEACHER, student, 1, reason⟩] ts fuel =
      some (b, c'.blockchain) ∧
    c'.students = c.students := by
  unfold ClassroomCoin.award_coin at h
  by_cases hs : c.students.contains student
  · rw [if_pos hs] at h
    cases ha : c.blockchain.add_block [⟨TEACHER, student, 1, reason⟩] ts fuel with
    | none => rw [ha] at h; cases h
    | some p =>
        obtain ⟨b0, bc'⟩ := p
        rw [ha] at h
        simp only [Option.some.injEq, Prod.mk.injEq, Except.ok.injEq] at h
        obtain ⟨hc, hb⟩ := h
        subst hb
        exact ⟨hs, by rw [← hc], by rw [← hc]⟩
  · rw [if_neg hs] at h
    simp at h

theorem transfer_ok (c : ClassroomCoin) (s r : String) (amount : Int)
    (note ts : String) (fuel : Nat) (c' : ClassroomCoin) (b : Block)
    (h : c.transfer s r amount note ts fuel = some (c', Except.ok b)) :
    c.students.contains s = true ∧ c.students.contains r = true ∧
    ¬(c.blockchain.get_balance s < amount) ∧
    c.blockchain.add_block [⟨s, r, amount, note⟩] ts fuel =
      some (b, c'.blockchain) ∧
    c'.students = c.students := by
  unfold ClassroomCoin.transfer at h
  by_cases hsr : (!(c.students.contains s) || !(c.students.contains r)) = true
  · rw [if_pos hsr] at h
    simp at h
  · rw [if_neg hsr] at h
    have hs : c.students.contains s = true := by
      cases hx : c.students.contains s with
      | true => rfl
      | false =>
          exact absurd
            (by simp only [hx, Bool.not_false, Bool.true_or]) hsr
    have hrr : c.students.contains r = true := by
      cases hx : c.students.contains r with
      | true => rfl
      | false =>
          exact absurd
            (by simp only [hx, Bool.not_false, Bool.or_true]) hsr
    by_cases hbal : c.blockchain.get_balance s < amount
    · rw [if_pos hbal] at h
      simp at h
    · rw [if_neg hbal] at h
      cases ha : c.blockchain.add_block [⟨s, r, amount, note⟩] ts fuel with
      | none => rw [ha] at h; cases h
      | some p =>
          obtain ⟨b0, bc'⟩ := p
          rw [ha] at h
          simp only [Option.some.injEq, Prod.mk.injEq, Except.ok.injEq] at h
          obtain ⟨hc, hb⟩ := h
          subst hb
          exact ⟨hs, hrr, hbal, by rw [← hc], by rw [← hc]⟩

/-! ## Chain invariants: positions, linkage and hash soundness -/

/-- Every stored hash is the digest of the block's own stored fields. -/
def HashSound (bc : SimpleBlockchain) : Prop :=
  ∀ b ∈ bc.chain, b.hash = b.compute_hash

/-- The chain is non-empty, every block's `index` is its position, and every
non-genesis block's `previous_hash` is the previous block's `hash`. -/
def Linked (bc : SimpleBlockchain) : Prop :=
  bc.chain ≠ [] ∧
  (∀ (i : Nat) (h : i < bc.chain.length), (bc.chain.get ⟨i, h⟩).index = i) ∧
  (∀ (i : Nat) (h : i + 1 < bc.chain.length),
    (bc.chain.get ⟨i + 1, h⟩).previous_hash =
      (bc.chain.get ⟨i, Nat.lt_of_succ_lt h⟩).hash)

theorem getLastD_eq_get : ∀ (l : List Block) (d : Block), l ≠ [] →
    ∀ (h : l.length - 1 < l.length), l.getLastD d = l.get ⟨l.length - 1, h⟩
  | [], _, hne, _ => absurd rfl hne
  | [x], d, _, h => by simp
  | x :: y :: ys, d, _, h => by
      rw [List.getLastD_cons]
      have h' : (y :: ys).length - 1 < (y :: ys).length := by simp
      rw [getLastD_eq_get (y :: ys) x (by simp) h']
      have hlen : (x :: y :: ys).length - 1 = ((y :: ys).length - 1) + 1 := by
        simp
      simp only [List.get]
      congr 1

theorem linked_add_block (bc bc' : SimpleBlockchain)
    (txs : List Transaction) (ts : String) (fuel : Nat) (b : Block)
    (hL : Linked bc) (hH : HashSound bc)
    (h : bc.add_block txs ts fuel = some (b, bc')) :
    Linked bc' ∧ HashSound bc' := by
  obtain ⟨hchain, _, hbidx, hbprev, _, _, hbhash⟩ :=
    add_block_some bc txs ts fuel b bc' h
  obtain ⟨hne, hidxs, hlinks⟩ := hL
  have hlen : bc'.chain.length = bc.chain.length + 1 := by simp [hchain]
  refine ⟨⟨by simp [hchain], ?_, ?_⟩, ?_⟩
  · intro i hi
    simp only [List.get_eq_getElem, hchain]
    by_cases hlt : i < bc.chain.length
    · rw [List.getElem_append_left hlt]
      have := hidxs i hlt
      simpa using this
    · have hieq : i = bc.chain.length := by
        rw [hlen] at hi
        omega
      rw [List.getElem_concat_length _ _ _ hieq]
      rw [hbidx, hieq]
  · intro i hi
    simp only [List.get_eq_getElem, hchain]
    by_cases hlt : i + 1 < bc.chain.length
    · rw [List.getElem_append_left hlt,
        List.getElem_append_left (Nat.lt_of_succ_lt hlt)]
      have := hlinks i hlt
      simpa using this
    · have hieq : i + 1 = bc.chain.length := by
        rw [hlen] at hi
        omega
      rw [List.getElem_concat_length _ _ _ hieq]
      rw [List.getElem_append_left (by omega : i < bc.chain.length)]
      rw [hbprev, SimpleBlockchain.last_block,
        getLastD_eq_get bc.chain emptyBlock hne (by omega)]
      simp only [List.get_eq_getElem]
      have hi0 : i = bc.chain.length - 1 := by omega
      subst hi0
      rfl
  · intro x hx
    rw [hchain] at hx
    rcases List.mem_append.mp hx with hx | hx
    · exact hH x hx
    · rw [List.mem_singleton.mp hx]
      exact hbhash

/-- Every reachable state satisfies both chain invariants. -/
theorem reach_inv (c : ClassroomCoin) (hr : Reach c) :
    Linked c.blockchain ∧ HashSound c.blockchain := by
  induction hr with
  | fresh students d ts =>
      constructor
      · refine ⟨by simp [ClassroomCoin.new, SimpleBlockchain.new], ?_, ?_⟩
        · intro i h
          have h1 : i < 1 := by simpa [ClassroomCoin.new,
            SimpleBlockchain.new] using h
          have h0 : i = 0 := by omega
          subst h0
          rfl
        · intro i h
          simp only [ClassroomCoin.new, SimpleBlockchain.new,
            List.length_singleton] at h
          omega
      · intro b hb
        have : b = create_genesis_block ts := by
          simpa [ClassroomCoin.new, SimpleBlockchain.new] using hb
        subst this
        rfl
  | add_block c txs ts fuel b bc' _ hstep ih =>
      exact linked_add_block c.blockchain bc' txs ts fuel b ih.1 ih.2 hstep
  | award c student reason ts fuel c' b _ hstep ih =>
      obtain ⟨_, hadd, _⟩ :=
        award_coin_ok c student reason ts fuel c' b hstep
      exact linked_add_block c.blockchain c'.blockchain _ ts fuel b
        ih.1 ih.2 hadd
  | transfer c s r amount note ts fuel c' b _ hstep ih =>
      obtain ⟨_, _, _, hadd, _⟩ :=
        transfer_ok c s r amount note ts fuel c' b hstep
      exact linked_add_block c.blockchain c'.blockchain _ ts fuel b
        ih.1 ih.2 hadd
  | register c name _ ih => exact ih

/-! ## Stable descending sort (leaderboard) -/

/-- Descending order on balances: the later entry's balance is no larger. -/
def descBal (p q : String × Int) : Prop := q.2 ≤ p.2

theorem insertDesc_perm (p : String × Int) (l : List (String × Int)) :
    (insertDesc p l).Perm (p :: l) := by
  induction l with
  | nil => exact List.Perm.refl _
  | cons q rest ih =>
      simp only [insertDesc]
      by_cases h : q.2 < p.2
      · rw [if_pos h]
      · rw [if_neg h]
        exact (ih.cons q).trans (List.Perm.swap p q rest)

theorem insertDesc_sorted (p : String × Int) (l : List (String × Int))
    (h : List.Pairwise descBal l) :
    List.Pairwise descBal (insertDesc p l) := by
  induction l with
  | nil => simp [insertDesc, descBal]
  | cons q rest ih =>
      rw [List.pairwise_cons] at h
      obtain ⟨hq, hrest⟩ := h
      simp only [insertDesc]
      by_cases hlt : q.2 < p.2
      · rw [if_pos hlt]
        refine List.Pairwise.cons ?_ (List.Pairwise.cons hq hrest)
        intro x hx
        rcases List.mem_cons.mp hx with rfl | hx
        · exact le_of_lt hlt
        · exact le_trans (hq x hx) (le_of_lt hlt)
      · rw [if_neg hlt]
        refine List.Pairwise.cons ?_ (ih hrest)
        intro x hx
        rcases List.mem_cons.mp ((insertDesc_perm p rest).mem_iff.mp hx)
          with rfl | hx
        · exact le_of_not_lt hlt
        · exact hq x hx

theorem insertDesc_filter (v : Int) (p : String × Int)
    (l : List (String × Int)) (h : List.Pairwise descBal l) :
    (insertDesc p l).filter (fun q => q.2 == v) =
      l.filter (fun q => q.2 == v) ++ (if p.2 == v then [p] else []) := by
  induction l with
  | nil =>
      by_cases hv : (p.2 == v) = true <;> simp [insertDesc, hv]
  | cons q rest ih =>
      rw [List.pairwise_cons] at h
      obtain ⟨hq, hrest⟩ := h
      simp only [insertDesc]
      by_cases hlt : q.2 < p.2
      · rw [if_pos hlt]
        by_cases hv : (p.2 == v) = true
        · have hpv : p.2 = v := by simpa [beq_iff_eq] using hv
          have hnil : (q :: rest).filter (fun x => x.2 == v) = [] := by
            rw [List.filter_eq_nil_iff]
            intro x hx
            rcases List.mem_cons.mp hx with rfl | hx
            · simp only [beq_iff_eq]
              omega
            · have hle : x.2 ≤ q.2 := hq x hx
              simp only [beq_iff_eq]
              omega
          simp [List.filter_cons, hv, hnil]
        · simp [List.filter_cons, hv]
      · rw [if_neg hlt]
        by_cases hqv : (q.2 == v) = true
        · simp [List.filter_cons, hqv, ih hrest]
        · simp [List.filter_cons, hqv, ih hrest]

theorem foldl_insertDesc_perm (l acc : List (String × Int)) :
    (l.foldl (fun acc p => insertDesc p acc) acc).Perm (acc ++ l) := by
  induction l generalizing acc with
  | nil => simp
  | cons p rest ih =>
      simp only [List.foldl_cons]
      refine (ih (insertDesc p acc)).trans ?_
      refine (List.Perm.append_right rest (insertDesc_perm p acc)).trans ?_
      exact List.perm_middle.symm

theorem foldl_insertDesc_sorted (l acc : List (String × Int))
    (h : List.Pairwise descBal acc) :
    List.Pairwise descBal (l.foldl (fun acc p => insertDesc p acc) acc) := by
  induction l generalizing acc with
  | nil => exact h
  | cons p rest ih =>
      simp only [List.foldl_cons]
      exact ih _ (insertDesc_sorted p acc h)

theorem foldl_insertDesc_filter (v : Int) (l acc : List (String × Int))
    (h : List.Pairwise descBal acc) :
    (l.foldl (fun acc p => insertDesc p acc) acc).filter
        (fun q => q.2 == v) =
      acc.filter (fun q => q.2 == v) ++ l.filter (fun q => q.2 == v) := by
  induction l generalizing acc with
  | nil => simp
  | cons p rest ih =>
      simp only [List.foldl_cons]
      rw [ih _ (insertDesc_sorted p acc h), insertDesc_filter v p acc h,
        List.filter_cons]
      by_cases hv : (p.2 == v) = true <;>
        simp [hv, List.append_assoc]

/-! ## Concrete witness states (difficulty 0, so mining succeeds at once) -/

def wCoin2 : ClassroomCoin := awardState wCoin1 "Alice" "good" "t2" 0

def wCoin3 : ClassroomCoin := awardState wCoin2 "Alice" "good" "t3" 0

def wBlock1 : Block := awardBlock wCoin0 "Alice" "good" "t1" 0

def wBlock2 : Block := awardBlock wCoin1 "Alice" "good" "t2" 0

def wBlock3 : Block := awardBlock wCoin2 "Alice" "good" "t3" 0

/-- A fresh classroom with two registered students, difficulty 0. -/
def wPair : ClassroomCoin := ClassroomCoin.new ["Alice", "Bob"] 0 "t0"

theorem wCoin1_award :
    wCoin0.award_coin "Alice" "good" "t1" 0 =
      some (wCoin1, Except.ok wBlock1) := by
  rfl

theorem wCoin2_award :
    wCoin1.award_coin "Alice" "good" "t2" 0 =
      some (wCoin2, Except.ok wBlock2) := by
  rfl

theorem wCoin3_award :
    wCoin2.award_coin "Alice" "good" "t3" 0 =
      some (wCoin3, Except.ok wBlock3) := by
  rfl

theorem wCoin1_reach : Reach wCoin1 :=
  Reach.award wCoin0 "Alice" "good" "t1" 0 wCoin1 wBlock1
    (Reach.fresh ["Alice"] 0 "t0") wCoin1_award

theorem wCoin1_len : 1 < wCoin1.blockchain.chain.length := by decide

/-! ## The specification claims -/

/-- C1: in every chain reachable by any sequence of successful operations
(construction, `add_block`, `award_coin`, `transfer`, plus student
registration), every non-genesis block at position `i` has `previous_hash`
equal to the hash of the block at position `i - 1` and `index` equal to
`i`. -/
theorem chain_linkage (c : ClassroomCoin) (hr : Reach c) :
    ∀ (i : Nat) (h : i < c.blockchain.chain.length) (hpos : 0 < i),
      (c.blockchain.chain.get ⟨i, h⟩).previous_hash =
        (c.blockchain.chain.get ⟨i - 1, by omega⟩).hash ∧
      (c.blockchain.chain.get ⟨i, h⟩).index = i := by
  intro i h hpos
  obtain ⟨⟨hne, hidx, hlink⟩, _⟩ := reach_inv c hr
  obtain ⟨j, rfl⟩ : ∃ j, i = j + 1 := ⟨i - 1, by omega⟩
  constructor
  · simpa using hlink j h
  · exact hidx (j + 1) h

/-- C1 witness: the two-block chain after one coin award, at position 1. -/
theorem chain_linkage_witness :
    (wCoin1.blockchain.chain.get ⟨1, wCoin1_len⟩).previous_hash =
      (wCoin1.blockchain.chain.get
        ⟨0, Nat.lt_of_succ_lt wCoin1_len⟩).hash ∧
    (wCoin1.blockchain.chain.get ⟨1, wCoin1_len⟩).index = 1 :=
  chain_linkage wCoin1 wCoin1_reach 1 wCoin1_len (by omega)

/-- C2: in every reachable chain, every block's stored `hash` equals the
digest recomputed by `compute_hash` over its stored fields (`index`,
`transactions`, `previous_hash`, `nonce`, `timestamp`). -/
theorem hash_field_roundtrip (c : ClassroomCoin) (hr : Reach c) :
    ∀ b ∈ c.blockchain.chain, b.hash = b.compute_hash :=
  (reach_inv c hr).2

/-- C2 witness: the mined block of the two-block chain after one award. -/
theorem hash_field_roundtrip_witness :
    (wCoin1.blockchain.chain.get ⟨1, wCoin1_len⟩).hash =
      (wCoin1.blockchain.chain.get ⟨1, wCoin1_len⟩).compute_hash :=
  hash_field_roundtrip wCoin1 wCoin1_reach _
    (List.get_mem wCoin1.blockchain.chain 1 wCoin1_len)

/-- C3: whenever `proof_of_work` returns a block, that block's hash string
begins with `difficulty` copies of the character `'0'`; and with
difficulty 0 it returns at once with the block (hence its nonce and hash)
unchanged. -/
theorem proof_of_work_correct :
    (∀ (bc : SimpleBlockchain) (fuel : Nat) (b b' : Block),
        bc.proof_of_work fuel b = some b' →
        charsPrefix (powTarget bc.difficulty) b'.hash.data = true) ∧
    (∀ (bc : SimpleBlockchain), bc.difficulty = 0 →
        ∀ (fuel : Nat) (b : Block), bc.proof_of_work fuel b = some b) :=
  ⟨proof_of_work_target, proof_of_work_zero_difficulty⟩

/-- C3 witness: a difficulty-0 ledger mines any block at once, and the
returned block carries the (empty) target as prefix. -/
theorem proof_of_work_correct_witness :
    charsPrefix (powTarget wCoin0.blockchain.difficulty)
        emptyBlock.hash.data = true ∧
    wCoin0.blockchain.proof_of_work 0 emptyBlock = some emptyBlock :=
  ⟨proof_of_work_correct.1 wCoin0.blockchain 0 emptyBlock emptyBlock
      (by rfl),
   proof_of_work_correct.2 wCoin0.blockchain rfl 0 emptyBlock⟩

/-- C10: the constructor seeds the chain with the genesis block directly,
for every difficulty: genesis has index 0, previous_hash "0", no
transactions, nonce 0, and its hash is just the computed digest — the
chain is the same whatever the difficulty (no mining), and concretely a
genesis hash need not start with the difficulty target. -/
theorem genesis_block_unmined :
    (∀ (d : Nat) (ts : String),
        (SimpleBlockchain.new d ts).chain = [create_genesis_block ts]) ∧
    (∀ (ts : String),
        (create_genesis_block ts).index = 0 ∧
        (create_genesis_block ts).previous_hash = "0" ∧
        (create_genesis_block ts).transactions = [] ∧
        (create_genesis_block ts).nonce = 0 ∧
        (create_genesis_block ts).hash =
          (create_genesis_block ts).compute_hash) ∧
    (∀ (d d' : Nat) (ts : String),
        (SimpleBlockchain.new d ts).chain =
          (SimpleBlockchain.new d' ts).chain) ∧
    ¬ charsPrefix (powTarget 2)
        ((SimpleBlockchain.new 2 "1700000000.0").last_block.hash).data
        = true := by
  refine ⟨fun d ts => rfl,
    fun ts => ⟨rfl, rfl, rfl, rfl, rfl⟩,
    fun d d' ts => rfl, ?_⟩
  decide

/-- C4: `get_balance` is the signed sum over all transactions (`+amount`
to the recipient, `-amount` to the sender); in particular three successful
1-coin awards to the registered student "Alice" on a fresh ledger leave
`balance("Alice") = 3` and `balance("TEACHER") = -3`. -/
theorem get_balance_signed_sum :
    (∀ (bc : SimpleBlockchain) (a : String),
        bc.get_balance a = specSignedSum bc a) ∧
    (∀ (students : List String) (d : Nat)
        (t0 r1 t1 r2 t2 r3 t3 : String) (f1 f2 f3 : Nat)
        (c1 c2 c3 : ClassroomCoin) (b1 b2 b3 : Block),
        students.contains "Alice" = true →
        (ClassroomCoin.new students d t0).award_coin "Alice" r1 t1 f1 =
          some (c1, Except.ok b1) →
        c1.award_coin "Alice" r2 t2 f2 = some (c2, Except.ok b2) →
        c2.award_coin "Alice" r3 t3 f3 = some (c3, Except.ok b3) →
        c3.balance "Alice" = 3 ∧ c3.balance TEACHER = -3) := by
  refine ⟨get_balance_eq_spec, ?_⟩
  intro students d t0 r1 t1 r2 t2 r3 t3 f1 f2 f3 c1 c2 c3 b1 b2 b3 _ h1 h2 h3
  obtain ⟨_, hadd1, _⟩ := award_coin_ok _ _ _ _ _ _ _ h1
  obtain ⟨_, hadd2, _⟩ := award_coin_ok _ _ _ _ _ _ _ h2
  obtain ⟨_, hadd3, _⟩ := award_coin_ok _ _ _ _ _ _ _ h3
  obtain ⟨hc1, _, _, _, ht1, _, _⟩ := add_block_some _ _ _ _ _ _ hadd1
  obtain ⟨hc2, _, _, _, ht2, _, _⟩ := add_block_some _ _ _ _ _ _ hadd2
  obtain ⟨hc3, _, _, _, ht3, _, _⟩ := add_block_some _ _ _ _ _ _ hadd3
  have key : ∀ a : String, c3.balance a =
      txDelta a ⟨TEACHER, "Alice", 1, r1⟩ +
      txDelta a ⟨TEACHER, "Alice", 1, r2⟩ +
      txDelta a ⟨TEACHER, "Alice", 1, r3⟩ := by
    intro a
    rw [ClassroomCoin.balance, get_balance_eq_spec]
    unfold specSignedSum chainTxs
    rw [hc3, hc2, hc1]
    simp [ClassroomCoin.new, SimpleBlockchain.new, create_genesis_block,
      List.map_append, List.flatten_append, List.sum_append, ht1, ht2, ht3]
    ring
  constructor
  · rw [key]
    simp [txDelta, TEACHER]
  · rw [key]
    simp [txDelta, TEACHER]

/-- C4 witness: three concrete awards on a fresh difficulty-0 ledger. -/
theorem get_balance_signed_sum_witness :
    (["Alice"].contains "Alice" = true) ∧
    wCoin3.balance "Alice" = 3 ∧ wCoin3.balance TEACHER = -3 :=
  ⟨by decide,
   get_balance_signed_sum.2 ["Alice"] 0 "t0" "good" "t1" "good" "t2"
     "good" "t3" 0 0 0 wCoin1 wCoin2 wCoin3 wBlock1 wBlock2 wBlock3
     (by decide) wCoin1_award wCoin2_award wCoin3_award⟩

/-- C5 counterexample: after a single 1-coin award on a fresh ledger the
values of `all_balances` sum to 0 (the TEACHER balance is −1) while the
total award amount is 1 — the claimed equality evaluates to false. -/
theorem conservation_counterexample :
    (((wCoin1.blockchain.all_balances).map Prod.snd).sum ==
        teacherAwardTotal wCoin1.blockchain) = false ∧
    ((wCoin1.blockchain.all_balances).map Prod.snd).sum = 0 ∧
    teacherAwardTotal wCoin1.blockchain = 1 := by
  refine ⟨by decide, by decide, by decide⟩

/-- C5 (amended): after any sequence of successful operations on a fresh
ledger, the values of `all_balances` sum to 0 — every award and transfer is
zero-sum, the total amount introduced by TEACHER awards being offset by
TEACHER's own negative balance. -/
theorem conservation_sum_zero (c : ClassroomCoin) (_hr : Reach c) :
    ((c.blockchain.all_balances).map Prod.snd).sum = 0 :=
  sum_all_balances_zero c.blockchain

/-- C5 witness: the two-block chain after one award. -/
theorem conservation_sum_zero_witness :
    ((wCoin1.blockchain.all_balances).map Prod.snd).sum = 0 :=
  conservation_sum_zero wCoin1 wCoin1_reach

/-- C6: `transfer` fails with the unregistered-participant error when
either party is unknown, fails with the insufficient-balance error when the
sender's balance is below the amount, and every error outcome leaves the
state (hence the chain and its length) exactly as it was. -/
theorem transfer_failure_cases (c : ClassroomCoin) (s r : String)
    (amount : Int) (note ts : String) (fuel : Nat) :
    ((c.students.contains s = false ∨ c.students.contains r = false) →
      c.transfer s r amount note ts fuel =
        some (c, Except.error (LedgerError.unregisteredParticipant
          "Both sender and recipient must be registered students."))) ∧
    (c.students.contains s = true → c.students.contains r = true →
      c.blockchain.get_balance s < amount →
      c.transfer s r amount note ts fuel =
        some (c, Except.error (LedgerError.insufficientBalance
          (s ++ " does not have enough balance.")))) ∧
    (∀ (c' : ClassroomCoin) (e : LedgerError),
      c.transfer s r amount note ts fuel = some (c', Except.error e) →
      c' = c) := by
  refine ⟨?_, ?_, ?_⟩
  · intro hreg
    have hcond :
        (!(c.students.contains s) || !(c.students.contains r)) = true := by
      rcases hreg with h | h
      · rw [h]
        rfl
      · simp only [h, Bool.not_false, Bool.or_true]
    unfold ClassroomCoin.transfer
    rw [if_pos hcond]
  · intro hs hrr hbal
    unfold ClassroomCoin.transfer
    rw [if_neg (by rw [hs, hrr]; decide), if_pos hbal]
  · intro c' e h
    unfold ClassroomCoin.transfer at h
    by_cases h1 : (!(c.students.contains s) || !(c.students.contains r))
        = true
    · rw [if_pos h1] at h
      simp only [Option.some.injEq, Prod.mk.injEq] at h
      exact h.1.symm
    · rw [if_neg h1] at h
      by_cases h2 : c.blockchain.get_balance s < amount
      · rw [if_pos h2] at h
        simp only [Option.some.injEq, Prod.mk.injEq] at h
        exact h.1.symm
      · rw [if_neg h2] at h
        cases ha : c.blockchain.add_block [⟨s, r, amount, note⟩] ts fuel with
        | none => rw [ha] at h; cases h
        | some p =>
            obtain ⟨b0, bc0⟩ := p
            rw [ha] at h
            simp at h

/-- C6 witness: on a fresh two-student ledger, a transfer from an unknown
sender and an overdraft transfer both fail with the exact errors and the
unchanged state. -/
theorem transfer_failure_cases_witness :
    wPair.transfer "Mallory" "Bob" 1 "" "t1" 0 =
      some (wPair, Except.error (LedgerError.unregisteredParticipant
        "Both sender and recipient must be registered students.")) ∧
    wPair.transfer "Alice" "Bob" 5 "" "t1" 0 =
      some (wPair, Except.error (LedgerError.insufficientBalance
        "Alice does not have enough balance.")) ∧
    wPair = wPair :=
  ⟨(transfer_failure_cases wPair "Mallory" "Bob" 1 "" "t1" 0).1
      (Or.inl (by decide)),
   (transfer_failure_cases wPair "Alice" "Bob" 5 "" "t1" 0).2.1
      (by decide) (by decide) (by decide),
   (transfer_failure_cases wPair "Alice" "Bob" 5 "" "t1" 0).2.2 wPair _
      ((transfer_failure_cases wPair "Alice" "Bob" 5 "" "t1" 0).2.1
        (by decide) (by decide) (by decide))⟩

/-- C7: the code does NOT validate the amount: a transfer of amount 0 and
one of amount −3 between registered students both succeed and append a
block (chain grows from 1 to 2 blocks) instead of failing with an
invalid-amount error — the source has no such check. -/
theorem transfer_nonpositive_accepted :
    ((wPair.transfer "Alice" "Bob" 0 "" "t1" 0).map
        (fun p => (p.1.blockchain.chain.length, p.2.isOk)) =
      some (2, true)) ∧
    ((wPair.transfer "Alice" "Bob" (-3) "" "t1" 0).map
        (fun p => (p.1.blockchain.chain.length, p.2.isOk)) =
      some (2, true)) := by
  constructor <;> rfl

/-- C8: `leaderboard` returns exactly the pairs of `all_balances`
(a permutation), ordered by balance descending, with ties kept in the
order the participants appear in `all_balances` (every balance class is
filtered unchanged — a stable sort). -/
theorem leaderboard_stable_desc (c : ClassroomCoin) :
    (c.leaderboard).Perm c.blockchain.all_balances ∧
    List.Pairwise descBal c.leaderboard ∧
    ∀ v : Int, c.leaderboard.filter (fun q => q.2 == v) =
      c.blockchain.all_balances.filter (fun q => q.2 == v) := by
  unfold ClassroomCoin.leaderboard stableDescSort
  refine ⟨?_, ?_, ?_⟩
  · simpa using foldl_insertDesc_perm c.blockchain.all_balances []
  · exact foldl_insertDesc_sorted c.blockchain.all_balances []
      List.Pairwise.nil
  · intro v
    simpa using foldl_insertDesc_filter v c.blockchain.all_balances []
      List.Pairwise.nil

/-- C9: the two balance query paths agree — `get_balance a` returns the
value `all_balances` maps `a` to, and 0 when `a` is absent from the
mapping. -/
theorem balance_paths_agree (bc : SimpleBlockchain) (a : String) :
    (∀ v : Int, alFind bc.all_balances a = some v →
      bc.get_balance a = v) ∧
    (alFind bc.all_balances a = none → bc.get_balance a = 0) := by
  have h : bc.get_balance a = alGet bc.all_balances a :=
    (get_balance_eq_spec bc a).trans (alGet_all_balances bc a).symm
  constructor
  · intro v hv
    rw [h]
    unfold alGet
    rw [hv]
  · intro hv
    rw [h]
    unfold alGet
    rw [hv]

/-- C9 witness: after one award, "Alice" is present with balance 1 and an
address that never occurs is absent and reads 0. -/
theorem balance_paths_agree_witness :
    (alFind wCoin1.blockchain.all_balances "Alice" = some 1 ∧
      wCoin1.blockchain.get_balance "Alice" = 1) ∧
    (alFind wCoin1.blockchain.all_balances "Nobody" = none ∧
      wCoin1.blockchain.get_balance "Nobody" = 0) :=
  ⟨⟨by decide,
    (balance_paths_agree wCoin1.blockchain "Alice").1 1 (by decide)⟩,
   ⟨by decide,
    (balance_paths_agree wCoin1.blockchain "Nobody").2 (by decide)⟩⟩

end Educoin
